/-
Verification of the ASS subtitle font replacer (ass_font_replacer.py).

Shallow embedding of the program's rewrite engine (`Worker.run`, lines 55-92),
configuration store (`load_fonts_config`, `App.loadConfig`, `App.saveConfig`)
and batch progress reporting (`Worker.run`, line 92) into Lean.

Strings are modelled as `List Char`.  The three regular expressions of the
source are modelled by dedicated scanners that reproduce the semantics of
CPython's `re` module on them:

  * `style_pattern  = ^Style: (.+?),(.+?),`   -> `styleMatch` (lazy groups
    with backtracking; `.` does not match a newline),
  * `font_tag_pattern = \\fn([^\\}]+)`        -> `fnSub` / `fnMarkers`
    (greedy character class, left-to-right non-overlapping `re.sub` scan),
  * `fsp_pattern = \\fsp-?\d*\.?\d*`          -> `fspStrip` / `fspSegs`
    (all-optional greedy tail, left-to-right non-overlapping `re.sub` scan).

`\d` and `str.strip()` are modelled over their ASCII subsets (the source is
only ever exercised on subtitle text; non-ASCII digits/whitespace behave the
same way for every claim below).  Recursive scanners take an explicit fuel
argument (always instantiated with the length of the scanned list) so that
all definitions reduce inside the kernel; `*_fuel` lemmas show the fuel is
irrelevant beyond the list length.
-/
import Mathlib

namespace AssFontReplacer

/-- `dict.get(k, d)` for a Python dict built from an association list by a
dict comprehension: later duplicate keys override earlier ones, hence the
lookup over the reversed list. -/
def pyGet (m : List (String × String)) (k d : String) : String :=
  match m.reverse.find? (fun p => p.1 == k) with
  | some p => p.2
  | none => d

/-- ASCII whitespace as removed by Python's `str.strip()`. -/
def pySpace (c : Char) : Bool :=
  c = ' ' || c = '\t' || c = '\n' || c = '\r' || c = '\x0b' || c = '\x0c'

/-- Python `str.strip()`: drop whitespace from both ends. -/
def pyStrip (cs : List Char) : List Char :=
  ((cs.dropWhile pySpace).reverse.dropWhile pySpace).reverse

/-- Characters allowed inside the group of `\\fn([^\\}]+)`: anything except a
backslash or a closing brace. -/
def fnGroupChar (c : Char) : Bool :=
  !(c = '\\' || c = '\x7d')

/-- Python `'\\fn' in line` (substring test, line 76 of the source). -/
def hasFnSub : List Char → Bool
  | [] => false
  | c :: cs => if c = '\\' ∧ cs.take 2 = ['f', 'n'] then true else hasFnSub cs

/-- Python `'\\fsp' in line` (substring test, line 67 of the source). -/
def hasFspSub : List Char → Bool
  | [] => false
  | c :: cs => if c = '\\' ∧ cs.take 3 = ['f', 's', 'p'] then true else hasFspSub cs

/-- Greedy match of the tail `-?\d*\.?\d*` of `fsp_pattern` at the head of
`cs`: returns the consumed part and the remainder.  Every piece is optional
and nothing follows in the pattern, so the greedy semantics is simply
"optional sign, maximal digit run, optional dot, maximal digit run". -/
def fspTailSplit (cs : List Char) : List Char × List Char :=
  let s1 : List Char × List Char :=
    if cs.take 1 = ['-'] then (['-'], cs.drop 1) else ([], cs)
  let d1 := s1.2.takeWhile Char.isDigit
  let r1 := s1.2.dropWhile Char.isDigit
  let s2 : List Char × List Char :=
    if r1.take 1 = ['.'] then (['.'], r1.drop 1) else ([], r1)
  let d2 := s2.2.takeWhile Char.isDigit
  let r2 := s2.2.dropWhile Char.isDigit
  (s1.1 ++ d1 ++ s2.1 ++ d2, r2)

/-- `fsp_pattern.sub('', line)` (line 68 of the source): non-overlapping
left-to-right scan deleting every match. -/
def fspStripA : Nat → List Char → List Char
  | 0, cs => cs
  | _ + 1, [] => []
  | fuel + 1, c :: cs =>
    if c = '\\' ∧ cs.take 3 = ['f', 's', 'p'] then
      fspStripA fuel (fspTailSplit (cs.drop 3)).2
    else
      c :: fspStripA fuel cs

def fspStrip (cs : List Char) : List Char := fspStripA cs.length cs

/-- The same scan as `fspStrip`, but returning the decomposition of the line
into kept one-character segments (`false`) and deleted matches (`true`). -/
def fspSegsA : Nat → List Char → List (Bool × List Char)
  | 0, _ => []
  | _ + 1, [] => []
  | fuel + 1, c :: cs =>
    if c = '\\' ∧ cs.take 3 = ['f', 's', 'p'] then
      let p := fspTailSplit (cs.drop 3)
      (true, c :: 'f' :: 's' :: 'p' :: p.1) :: fspSegsA fuel p.2
    else
      (false, [c]) :: fspSegsA fuel cs

def fspSegs (cs : List Char) : List (Bool × List Char) := fspSegsA cs.length cs

/-- Checker for the font-spacing marker shape described by the spec:
backslash + `fsp` + optional sign + optional digits + optional decimal
fraction, with nothing left over. -/
def fspMarkerShape (mk : List Char) : Bool :=
  if mk.take 4 = ['\\', 'f', 's', 'p'] then
    let t := mk.drop 4
    let t1 := if t.take 1 = ['-'] then t.drop 1 else t
    let t2 := t1.dropWhile Char.isDigit
    let t3 := if t2.take 1 = ['.'] then t2.drop 1 else t2
    (t3.dropWhile Char.isDigit).isEmpty
  else false

/-- `font_tag_pattern.sub(replace_font, line)` (lines 77-81 of the source):
non-overlapping left-to-right scan; each match `\\fn([^\\}]+)` (greedy,
nonempty group) is replaced by `\\fn` followed by
`font_replacements.get(group, default_font)`. -/
def fnSubA (m : List (String × String)) (d : String) : Nat → List Char → List Char
  | 0, cs => cs
  | _ + 1, [] => []
  | fuel + 1, c :: cs =>
    if c = '\\' ∧ cs.take 2 = ['f', 'n'] then
      let rest := cs.drop 2
      let grp := rest.takeWhile fnGroupChar
      if grp = [] then
        c :: 'f' :: 'n' :: fnSubA m d fuel rest
      else
        c :: 'f' :: 'n' :: ((pyGet m (String.mk grp) d).data ++
          fnSubA m d fuel (rest.drop grp.length))
    else
      c :: fnSubA m d fuel cs

def fnSub (m : List (String × String)) (d : String) (cs : List Char) : List Char :=
  fnSubA m d cs.length cs

/-- The captured groups of the successive matches of `font_tag_pattern` in
the scan order of `re.sub`: the inline font markers of a line together with
their font names. -/
def fnMarkersA : Nat → List Char → List String
  | 0, _ => []
  | _ + 1, [] => []
  | fuel + 1, c :: cs =>
    if c = '\\' ∧ cs.take 2 = ['f', 'n'] then
      let rest := cs.drop 2
      let grp := rest.takeWhile fnGroupChar
      if grp = [] then
        fnMarkersA fuel rest
      else
        String.mk grp :: fnMarkersA fuel (rest.drop grp.length)
    else
      fnMarkersA fuel cs

def fnMarkers (cs : List Char) : List String := fnMarkersA cs.length cs

/-- The decomposition performed by the `font_tag_pattern` scan of `re.sub`:
`true` segments are the matches (`\fn` followed by its nonempty greedy
group), `false` segments are the characters the scan passes over — single
characters, and a `\fn` whose group would be empty and which therefore
does not match. -/
def fnSegsA : Nat → List Char → List (Bool × List Char)
  | 0, _ => []
  | _ + 1, [] => []
  | fuel + 1, c :: cs =>
    if c = '\\' ∧ cs.take 2 = ['f', 'n'] then
      let rest := cs.drop 2
      let grp := rest.takeWhile fnGroupChar
      if grp = [] then (false, [c, 'f', 'n']) :: fnSegsA fuel rest
      else (true, c :: 'f' :: 'n' :: grp) :: fnSegsA fuel (rest.drop grp.length)
    else (false, [c]) :: fnSegsA fuel cs

def fnSegs (cs : List Char) : List (Bool × List Char) := fnSegsA cs.length cs

/-- Checker for the inline font-override marker shape: backslash + `fn` +
a nonempty font name free of backslashes and closing braces. -/
def fnMarkerShape (mk : List Char) : Bool :=
  mk.take 3 = ['\\', 'f', 'n'] && !(mk.drop 3).isEmpty && (mk.drop 3).all fnGroupChar

/-- In-place rewriting of one scan segment, as `replace_font` does it: a
marker `\fn<name>` becomes `\fn` followed by
`font_replacements.get(<name>, default_font)`; every other segment is kept
verbatim. -/
def fnRewriteSeg (m : List (String × String)) (d : String) (s : Bool × List Char) :
    List Char :=
  if s.1 then '\\' :: 'f' :: 'n' :: (pyGet m (String.mk (s.2.drop 3)) d).data else s.2

/-- All splits `cs = g ++ ',' :: r` with `'\n' ∉ g`, in order of increasing
`g.length`: the candidate ways the lazy `(.*?),` can consume `cs`. -/
def splits0 : List Char → List (List Char × List Char)
  | [] => []
  | c :: cs =>
    (if c = ',' then [(([] : List Char), cs)] else []) ++
      (if c = '\n' then [] else (splits0 cs).map (fun p => (c :: p.1, p.2)))

/-- All splits `cs = g ++ ',' :: r` with `g ≠ []` and `'\n' ∉ g`, in order of
increasing `g.length`: the candidate ways the lazy `(.+?),` can consume
`cs`. -/
def splits1 : List Char → List (List Char × List Char)
  | [] => []
  | c :: cs =>
    if c = '\n' then [] else (splits0 cs).map (fun p => (c :: p.1, p.2))

/-- `style_pattern.match(line)` with `style_pattern = ^Style: (.+?),(.+?),`
(lines 62, 70 of the source): anchored at the line start, lazy groups with
backtracking (shortest `g1`, then shortest `g2`), `.` not matching `'\n'`.
Returns the two captured groups. -/
def styleMatch (line : List Char) : Option (List Char × List Char) :=
  if line.take 7 = ['S', 't', 'y', 'l', 'e', ':', ' '] then
    (splits1 (line.drop 7)).findSome? fun p =>
      ((splits1 p.2).head?).map fun q => (p.1, q.1)
  else none

/-- Python `line.replace(pat, rep, 1)`: replace the first occurrence of
`pat` (for an empty `pat`, Python inserts `rep` in front of the line). -/
def replaceFirst (pat rep : List Char) : List Char → List Char
  | [] => if pat.isPrefixOf ([] : List Char) then rep else []
  | c :: cs =>
    if pat.isPrefixOf (c :: cs) then rep ++ (c :: cs).drop pat.length
    else c :: replaceFirst pat rep cs

/-- Lines 67-68 of the source: the spacing-removal step applied to a line
before classification. -/
def spacingStep (removeSpacing : Bool) (cs : List Char) : List Char :=
  if removeSpacing && hasFspSub cs then fspStrip cs else cs

/-- Lines 66-84 of the source: the per-line rewrite engine of `Worker.run`.
Spacing removal first, then the style-line branch (first-occurrence
replacement of the stripped second field), then the inline font-tag branch,
otherwise the line is returned unchanged. -/
def processLine (m : List (String × String)) (d : String) (removeSpacing : Bool)
    (cs : List Char) : List Char :=
  let line := spacingStep removeSpacing cs
  match styleMatch line with
  | some g =>
    let fontName := pyStrip g.2
    replaceFirst fontName (pyGet m (String.mk fontName) d).data line
  | none =>
    if hasFnSub line then fnSub m d line else line

def processLineStr (m : List (String × String)) (d : String) (removeSpacing : Bool)
    (s : String) : String :=
  String.mk (processLine m d removeSpacing s.data)

/-! ### File reading and writing (lines 58-59 and 87-89 of the source)

`open(..., encoding='utf-8-sig')` strips one leading byte-order mark on
read and always emits one on write; `readlines` splits the text keeping the
newline terminators.  Content is modelled at the character level, with the
byte-order mark as the character `U+FEFF` (byte-level UTF-8 encoding and
universal-newline translation are orthogonal to every claim below and are
not modelled). -/

def bomChar : Char := '\uFEFF'

/-- Decoding side of `utf-8-sig`: one leading byte-order mark is dropped. -/
def stripBOM (cs : List Char) : List Char :=
  if cs.take 1 = [bomChar] then cs.drop 1 else cs

/-- Python `readlines`: split after each `'\n'`, keeping the terminator. -/
def pyReadlines : List Char → List (List Char)
  | [] => []
  | c :: cs =>
    if c = '\n' then ['\n'] :: pyReadlines cs
    else
      match pyReadlines cs with
      | [] => [[c]]
      | l :: ls => (c :: l) :: ls

/-- One iteration of the file loop of `Worker.run`: read with `utf-8-sig`
(strip a leading byte-order mark), rewrite every line, write the lines with
`utf-8-sig`.  CPython's `utf-8-sig` encoder emits the byte-order mark with
the first actual `write` call, so `writelines` prepends one exactly when it
writes at least one line — a `writelines([])` (empty or byte-order-mark-only
input, whose `readlines` is `[]`) leaves the output file empty, without a
byte-order mark. -/
def processFile (m : List (String × String)) (d : String) (removeSpacing : Bool)
    (content : List Char) : List Char :=
  let newLines := (pyReadlines (stripBOM content)).map (processLine m d removeSpacing)
  if newLines.isEmpty then [] else bomChar :: newLines.flatten

/-! ### Config store (lines 13-41, 177-186, 258-265 of the source) -/

/-- The two JSON shapes the store handles: the legacy bare list of
`{fontBefore, fontAfter}` pairs, and the current
`{"fonts": [...], "removeFontSpacing": bool}` object. -/
inductive PersistedValue
  | legacy (pairs : List (String × String))
  | current (fonts : List (String × String)) (removeFontSpacing : Bool)
deriving DecidableEq

/-- Python truthiness of the parsed JSON value (`if not fonts_config`,
line 32): an empty list is falsy; the current-shape object is a two-key
dict, hence always truthy. -/
def pvFalsy : PersistedValue → Bool
  | .legacy ps => ps.isEmpty
  | .current _ _ => false

/-- `default_config` (lines 14-22 of the source). -/
def defaultPersisted : PersistedValue := .current [("Default", "Arial")] true

/-- `load_fonts_config` (lines 24-41): a missing file or a falsy parsed
value is replaced by the default configuration; otherwise the parsed value
is returned as-is.  `none` models a missing `fonts_config.json`. -/
def load_fonts_config (file : Option PersistedValue) : PersistedValue :=
  match file with
  | none => defaultPersisted
  | some v => if pvFalsy v then defaultPersisted else v

structure Config where
  fonts : List (String × String)
  removeFontSpacing : Bool
deriving DecidableEq

/-- `App.loadConfig` (lines 177-186): load, then upgrade the legacy list
shape to a `Config` with `removeFontSpacing = true`. -/
def loadConfig (file : Option PersistedValue) : Config :=
  match load_fonts_config file with
  | .legacy ps => ⟨ps, true⟩
  | .current fs b => ⟨fs, b⟩

/-- The default-font computation of `App.startProcessing` (lines 258-265):
build the replacement dict from the loaded fonts list and take
`font_replacements.get("Default", "Arial")`. -/
def startDefaultFont (fonts : List (String × String)) : String :=
  pyGet fonts "Default" "Arial"

/-! ### Progress reporting (line 92 of the source)

`self.progress.emit(int((index + 1) / total_files * 100))` is evaluated in
CPython with IEEE binary64 floating point.  `Dbl` models a non-negative
binary64 value as a mantissa/exponent pair (`m * 2^e` with
`2^52 ≤ m < 2^53` for nonzero values); `dblDiv`/`dblMul` are the correctly
rounded (round-to-nearest, ties-to-even) operations, and `dblFromNat`
models int-to-float conversion.  Overflow and subnormals are far outside
the range reached here and are not modelled. -/

structure Dbl where
  m : Nat
  e : Int
deriving DecidableEq

/-- Round `q + r / den` (with `r < den`) to the nearest integer, ties to
even. -/
def rhe (q r den : Nat) : Nat :=
  if 2 * r < den then q
  else if den < 2 * r then q + 1
  else if q % 2 = 0 then q else q + 1

/-- Renormalize a mantissa in `[2^52, 2^53]`: a carry to `2^53` bumps the
exponent. -/
def norm53 (m : Nat) (e : Int) : Dbl :=
  if m = 2 ^ 53 then ⟨2 ^ 52, e + 1⟩ else ⟨m, e⟩

/-- Fueled base-2 logarithm (`Nat.log2` is defined by well-founded
recursion, which the kernel cannot evaluate; this structural variant agrees
with it, see `nlog2_eq_log2`). -/
def log2A : Nat → Nat → Nat
  | 0, _ => 0
  | fuel + 1, n => if n ≥ 2 then log2A fuel (n / 2) + 1 else 0

def nlog2 (n : Nat) : Nat := log2A n n

theorem log2A_eq : ∀ fuel n, n ≤ fuel → log2A fuel n = Nat.log2 n := by
  intro fuel
  induction fuel with
  | zero =>
    intro n h
    have hn : n = 0 := by omega
    subst hn
    rw [Nat.log2]
    simp [log2A]
  | succ fuel ih =>
    intro n h
    rw [Nat.log2]
    simp only [log2A]
    by_cases h2 : n ≥ 2
    · rw [if_pos h2, if_pos h2]
      have hlt : n / 2 < n := Nat.div_lt_self (by omega) (by omega)
      rw [ih (n / 2) (by omega)]
    · rw [if_neg h2, if_neg h2]

theorem nlog2_eq_log2 (n : Nat) : nlog2 n = Nat.log2 n := log2A_eq n n (le_refl n)

/-- Exact-int-to-binary64 conversion (round to nearest even above `2^53`). -/
def dblFromNat (k : Nat) : Dbl :=
  if k = 0 then ⟨0, 0⟩
  else
    let t := nlog2 k
    if t ≤ 52 then ⟨k * 2 ^ (52 - t), (t : Int) - 52⟩
    else
      let s := t - 52
      norm53 (rhe (k / 2 ^ s) (k % 2 ^ s) (2 ^ s)) ((t : Int) - 52)

/-- Correctly rounded binary64 division of nonzero `Dbl`s. -/
def dblDiv (a b : Dbl) : Dbl :=
  if a.m = 0 ∨ b.m = 0 then ⟨0, 0⟩
  else if b.m ≤ a.m then
    norm53 (rhe (a.m * 2 ^ 52 / b.m) (a.m * 2 ^ 52 % b.m) b.m) (a.e - b.e - 52)
  else
    norm53 (rhe (a.m * 2 ^ 53 / b.m) (a.m * 2 ^ 53 % b.m) b.m) (a.e - b.e - 53)

/-- Correctly rounded binary64 multiplication of nonzero `Dbl`s. -/
def dblMul (a b : Dbl) : Dbl :=
  if a.m = 0 ∨ b.m = 0 then ⟨0, 0⟩
  else
    let p := a.m * b.m
    if p < 2 ^ 105 then
      norm53 (rhe (p / 2 ^ 52) (p % 2 ^ 52) (2 ^ 52)) (a.e + b.e + 52)
    else
      norm53 (rhe (p / 2 ^ 53) (p % 2 ^ 53) (2 ^ 53)) (a.e + b.e + 53)

/-- Python `int()` applied to a non-negative float: truncation. -/
def dblTruncNat (a : Dbl) : Nat :=
  match a.e with
  | .ofNat k => a.m * 2 ^ k
  | .negSucc k => a.m / 2 ^ (k + 1)

/-- `int((index + 1) / total_files * 100)` for `k = index + 1`, `n =
total_files` (line 92 of the source), under binary64 semantics. -/
def pyProgress (k n : Nat) : Nat :=
  dblTruncNat (dblMul (dblDiv (dblFromNat k) (dblFromNat n)) (dblFromNat 100))

/-- The sequence of progress-event payloads emitted by `Worker.run` for a
batch of `n` files, in emission order. -/
def progressEvents (n : Nat) : List Nat :=
  (List.range n).map fun i => pyProgress (i + 1) n

/-! ### Basic helper lemmas -/

theorem eq_take_append_drop {cs l : List Char} {n : Nat} (h : cs.take n = l) :
    cs = l ++ cs.drop n := by
  conv_lhs => rw [← List.take_append_drop n cs]
  rw [h]

theorem fspTailSplit_append (cs : List Char) :
    (fspTailSplit cs).1 ++ (fspTailSplit cs).2 = cs := by
  simp only [fspTailSplit]
  split_ifs with h1 h2 h2
  · dsimp only at h2 ⊢
    simp only [List.append_assoc, List.takeWhile_append_dropWhile]
    rw [← eq_take_append_drop h2, List.takeWhile_append_dropWhile,
      ← eq_take_append_drop h1]
  · dsimp only at h2 ⊢
    simp only [List.append_assoc, List.nil_append, List.append_nil,
      List.takeWhile_append_dropWhile]
    rw [← eq_take_append_drop h1]
  · dsimp only at h2 ⊢
    simp only [List.append_assoc, List.nil_append, List.append_nil,
      List.takeWhile_append_dropWhile]
    rw [← eq_take_append_drop h2, List.takeWhile_append_dropWhile]
  · dsimp only at h2 ⊢
    simp only [List.append_assoc, List.nil_append, List.append_nil,
      List.takeWhile_append_dropWhile]

theorem fspTailSplit_snd_length_le (cs : List Char) :
    (fspTailSplit cs).2.length ≤ cs.length := by
  have h : ((fspTailSplit cs).1 ++ (fspTailSplit cs).2).length = cs.length := by
    rw [fspTailSplit_append]
  simp only [List.length_append] at h
  omega

theorem fspStripA_fuel : ∀ f1 f2 (cs : List Char), cs.length ≤ f1 → cs.length ≤ f2 →
    fspStripA f1 cs = fspStripA f2 cs := by
  intro f1
  induction f1 with
  | zero =>
    intro f2 cs h1 _
    have hcs : cs = [] := List.length_eq_zero.mp (Nat.le_zero.mp h1)
    subst hcs
    cases f2 <;> rfl
  | succ f ih =>
    intro f2 cs h1 h2
    cases cs with
    | nil => cases f2 <;> rfl
    | cons c cs =>
      cases f2 with
      | zero => simp at h2
      | succ f2 =>
        simp only [List.length_cons] at h1 h2
        simp only [fspStripA]
        by_cases h : c = '\\' ∧ cs.take 3 = ['f', 's', 'p']
        · simp only [if_pos h]
          have hb : (fspTailSplit (cs.drop 3)).2.length ≤ cs.length := by
            have := fspTailSplit_snd_length_le (cs.drop 3)
            simp only [List.length_drop] at this
            omega
          exact ih f2 _ (by omega) (by omega)
        · simp only [if_neg h]
          rw [ih f2 cs (by omega) (by omega)]

theorem fspSegsA_fuel : ∀ f1 f2 (cs : List Char), cs.length ≤ f1 → cs.length ≤ f2 →
    fspSegsA f1 cs = fspSegsA f2 cs := by
  intro f1
  induction f1 with
  | zero =>
    intro f2 cs h1 _
    have hcs : cs = [] := List.length_eq_zero.mp (Nat.le_zero.mp h1)
    subst hcs
    cases f2 <;> rfl
  | succ f ih =>
    intro f2 cs h1 h2
    cases cs with
    | nil => cases f2 <;> rfl
    | cons c cs =>
      cases f2 with
      | zero => simp at h2
      | succ f2 =>
        simp only [List.length_cons] at h1 h2
        simp only [fspSegsA]
        by_cases h : c = '\\' ∧ cs.take 3 = ['f', 's', 'p']
        · simp only [if_pos h]
          have hb : (fspTailSplit (cs.drop 3)).2.length ≤ cs.length := by
            have := fspTailSplit_snd_length_le (cs.drop 3)
            simp only [List.length_drop] at this
            omega
          rw [ih f2 (fspTailSplit (cs.drop 3)).2 (by omega) (by omega)]
        · simp only [if_neg h]
          rw [ih f2 cs (by omega) (by omega)]

theorem fnSubA_fuel (m : List (String × String)) (d : String) :
    ∀ f1 f2 (cs : List Char), cs.length ≤ f1 → cs.length ≤ f2 →
      fnSubA m d f1 cs = fnSubA m d f2 cs := by
  intro f1
  induction f1 with
  | zero =>
    intro f2 cs h1 _
    have hcs : cs = [] := List.length_eq_zero.mp (Nat.le_zero.mp h1)
    subst hcs
    cases f2 <;> rfl
  | succ f ih =>
    intro f2 cs h1 h2
    cases cs with
    | nil => cases f2 <;> rfl
    | cons c cs =>
      cases f2 with
      | zero => simp at h2
      | succ f2 =>
        simp only [List.length_cons] at h1 h2
        simp only [fnSubA]
        by_cases h : c = '\\' ∧ cs.take 2 = ['f', 'n']
        · simp only [if_pos h]
          by_cases hg : (cs.drop 2).takeWhile fnGroupChar = []
          · simp only [if_pos hg]
            have : (cs.drop 2).length ≤ cs.length := by simp [List.length_drop]
            rw [ih f2 (cs.drop 2) (by omega) (by omega)]
          · simp only [if_neg hg]
            have : ((cs.drop 2).drop ((cs.drop 2).takeWhile fnGroupChar).length).length
                ≤ cs.length := by
              simp only [List.length_drop]
              omega
            rw [ih f2 ((cs.drop 2).drop ((cs.drop 2).takeWhile fnGroupChar).length)
              (by omega) (by omega)]
        · simp only [if_neg h]
          rw [ih f2 cs (by omega) (by omega)]

theorem fnMarkersA_fuel : ∀ f1 f2 (cs : List Char), cs.length ≤ f1 → cs.length ≤ f2 →
    fnMarkersA f1 cs = fnMarkersA f2 cs := by
  intro f1
  induction f1 with
  | zero =>
    intro f2 cs h1 _
    have hcs : cs = [] := List.length_eq_zero.mp (Nat.le_zero.mp h1)
    subst hcs
    cases f2 <;> rfl
  | succ f ih =>
    intro f2 cs h1 h2
    cases cs with
    | nil => cases f2 <;> rfl
    | cons c cs =>
      cases f2 with
      | zero => simp at h2
      | succ f2 =>
        simp only [List.length_cons] at h1 h2
        simp only [fnMarkersA]
        by_cases h : c = '\\' ∧ cs.take 2 = ['f', 'n']
        · simp only [if_pos h]
          by_cases hg : (cs.drop 2).takeWhile fnGroupChar = []
          · simp only [if_pos hg]
            have : (cs.drop 2).length ≤ cs.length := by simp [List.length_drop]
            rw [ih f2 (cs.drop 2) (by omega) (by omega)]
          · simp only [if_neg hg]
            have : ((cs.drop 2).drop ((cs.drop 2).takeWhile fnGroupChar).length).length
                ≤ cs.length := by
              simp only [List.length_drop]
              omega
            rw [ih f2 ((cs.drop 2).drop ((cs.drop 2).takeWhile fnGroupChar).length)
              (by omega) (by omega)]
        · simp only [if_neg h]
          rw [ih f2 cs (by omega) (by omega)]

theorem fnSegsA_fuel : ∀ f1 f2 (cs : List Char), cs.length ≤ f1 → cs.length ≤ f2 →
    fnSegsA f1 cs = fnSegsA f2 cs := by
  intro f1
  induction f1 with
  | zero =>
    intro f2 cs h1 _
    have hcs : cs = [] := List.length_eq_zero.mp (Nat.le_zero.mp h1)
    subst hcs
    cases f2 <;> rfl
  | succ f ih =>
    intro f2 cs h1 h2
    cases cs with
    | nil => cases f2 <;> rfl
    | cons c cs =>
      cases f2 with
      | zero => simp at h2
      | succ f2 =>
        simp only [List.length_cons] at h1 h2
        simp only [fnSegsA]
        by_cases h : c = '\\' ∧ cs.take 2 = ['f', 'n']
        · simp only [if_pos h]
          by_cases hg : (cs.drop 2).takeWhile fnGroupChar = []
          · simp only [if_pos hg]
            have : (cs.drop 2).length ≤ cs.length := by simp [List.length_drop]
            rw [ih f2 (cs.drop 2) (by omega) (by omega)]
          · simp only [if_neg hg]
            have : ((cs.drop 2).drop ((cs.drop 2).takeWhile fnGroupChar).length).length
                ≤ cs.length := by
              simp only [List.length_drop]
              omega
            rw [ih f2 ((cs.drop 2).drop ((cs.drop 2).takeWhile fnGroupChar).length)
              (by omega) (by omega)]
        · simp only [if_neg h]
          rw [ih f2 cs (by omega) (by omega)]

/-! ### Unfolding equations for the wrapped scanners -/

theorem fspStrip_nil : fspStrip [] = [] := rfl

theorem fspStrip_cons (c : Char) (cs : List Char) :
    fspStrip (c :: cs) =
      if c = '\\' ∧ cs.take 3 = ['f', 's', 'p'] then
        fspStrip (fspTailSplit (cs.drop 3)).2
      else c :: fspStrip cs := by
  show fspStripA (cs.length + 1) (c :: cs) = _
  simp only [fspStripA]
  by_cases h : c = '\\' ∧ cs.take 3 = ['f', 's', 'p']
  · simp only [if_pos h]
    have hb : (fspTailSplit (cs.drop 3)).2.length ≤ cs.length := by
      have := fspTailSplit_snd_length_le (cs.drop 3)
      simp only [List.length_drop] at this
      omega
    exact fspStripA_fuel cs.length _ _ hb (le_refl _)
  · simp only [if_neg h]
    rfl

theorem fspSegs_nil : fspSegs [] = [] := rfl

theorem fspSegs_cons (c : Char) (cs : List Char) :
    fspSegs (c :: cs) =
      if c = '\\' ∧ cs.take 3 = ['f', 's', 'p'] then
        (true, c :: 'f' :: 's' :: 'p' :: (fspTailSplit (cs.drop 3)).1) ::
          fspSegs (fspTailSplit (cs.drop 3)).2
      else (false, [c]) :: fspSegs cs := by
  show fspSegsA (cs.length + 1) (c :: cs) = _
  simp only [fspSegsA]
  by_cases h : c = '\\' ∧ cs.take 3 = ['f', 's', 'p']
  · simp only [if_pos h]
    have hb : (fspTailSplit (cs.drop 3)).2.length ≤ cs.length := by
      have := fspTailSplit_snd_length_le (cs.drop 3)
      simp only [List.length_drop] at this
      omega
    rw [fspSegsA_fuel cs.length _ _ hb (le_refl _)]
    rfl
  · simp only [if_neg h]
    rfl

theorem fnSub_nil (m : List (String × String)) (d : String) : fnSub m d [] = [] := rfl

theorem fnSub_cons (m : List (String × String)) (d : String) (c : Char) (cs : List Char) :
    fnSub m d (c :: cs) =
      if c = '\\' ∧ cs.take 2 = ['f', 'n'] then
        if (cs.drop 2).takeWhile fnGroupChar = [] then
          c :: 'f' :: 'n' :: fnSub m d (cs.drop 2)
        else
          c :: 'f' :: 'n' ::
            ((pyGet m (String.mk ((cs.drop 2).takeWhile fnGroupChar)) d).data ++
              fnSub m d ((cs.drop 2).drop ((cs.drop 2).takeWhile fnGroupChar).length))
      else c :: fnSub m d cs := by
  show fnSubA m d (cs.length + 1) (c :: cs) = _
  simp only [fnSubA]
  by_cases h : c = '\\' ∧ cs.take 2 = ['f', 'n']
  · simp only [if_pos h]
    by_cases hg : (cs.drop 2).takeWhile fnGroupChar = []
    · simp only [if_pos hg]
      have : (cs.drop 2).length ≤ cs.length := by simp [List.length_drop]
      rw [fnSubA_fuel m d cs.length _ _ (by omega) (le_refl _)]
      rfl
    · simp only [if_neg hg]
      have : ((cs.drop 2).drop ((cs.drop 2).takeWhile fnGroupChar).length).length
          ≤ cs.length := by
        simp only [List.length_drop]
        omega
      rw [fnSubA_fuel m d cs.length _ _ (by omega) (le_refl _)]
      rfl
  · simp only [if_neg h]
    rfl

theorem fnMarkers_nil : fnMarkers [] = [] := rfl

theorem fnMarkers_cons (c : Char) (cs : List Char) :
    fnMarkers (c :: cs) =
      if c = '\\' ∧ cs.take 2 = ['f', 'n'] then
        if (cs.drop 2).takeWhile fnGroupChar = [] then
          fnMarkers (cs.drop 2)
        else
          String.mk ((cs.drop 2).takeWhile fnGroupChar) ::
            fnMarkers ((cs.drop 2).drop ((cs.drop 2).takeWhile fnGroupChar).length)
      else fnMarkers cs := by
  show fnMarkersA (cs.length + 1) (c :: cs) = _
  simp only [fnMarkersA]
  by_cases h : c = '\\' ∧ cs.take 2 = ['f', 'n']
  · simp only [if_pos h]
    by_cases hg : (cs.drop 2).takeWhile fnGroupChar = []
    · simp only [if_pos hg]
      have : (cs.drop 2).length ≤ cs.length := by simp [List.length_drop]
      rw [fnMarkersA_fuel cs.length _ _ (by omega) (le_refl _)]
      rfl
    · simp only [if_neg hg]
      have : ((cs.drop 2).drop ((cs.drop 2).takeWhile fnGroupChar).length).length
          ≤ cs.length := by
        simp only [List.length_drop]
        omega
      rw [fnMarkersA_fuel cs.length _ _ (by omega) (le_refl _)]
      rfl
  · simp only [if_neg h]
    rfl

theorem fnSegs_nil : fnSegs [] = [] := rfl

theorem fnSegs_cons (c : Char) (cs : List Char) :
    fnSegs (c :: cs) =
      if c = '\\' ∧ cs.take 2 = ['f', 'n'] then
        if (cs.drop 2).takeWhile fnGroupChar = [] then
          (false, [c, 'f', 'n']) :: fnSegs (cs.drop 2)
        else
          (true, c :: 'f' :: 'n' :: (cs.drop 2).takeWhile fnGroupChar) ::
            fnSegs ((cs.drop 2).drop ((cs.drop 2).takeWhile fnGroupChar).length)
      else (false, [c]) :: fnSegs cs := by
  show fnSegsA (cs.length + 1) (c :: cs) = _
  simp only [fnSegsA]
  by_cases h : c = '\\' ∧ cs.take 2 = ['f', 'n']
  · simp only [if_pos h]
    by_cases hg : (cs.drop 2).takeWhile fnGroupChar = []
    · simp only [if_pos hg]
      have : (cs.drop 2).length ≤ cs.length := by simp [List.length_drop]
      rw [fnSegsA_fuel cs.length _ _ (by omega) (le_refl _)]
      rfl
    · simp only [if_neg hg]
      have : ((cs.drop 2).drop ((cs.drop 2).takeWhile fnGroupChar).length).length
          ≤ cs.length := by
        simp only [List.length_drop]
        omega
      rw [fnSegsA_fuel cs.length _ _ (by omega) (le_refl _)]
      rfl
  · simp only [if_neg h]
    rfl

/-! ### Structure of the spacing-removal scan -/

theorem dropWhile_takeWhile_digit (L : List Char) :
    List.dropWhile Char.isDigit (List.takeWhile Char.isDigit L) = [] := by
  rw [List.dropWhile_eq_nil_iff]
  exact fun y hy => List.mem_takeWhile_imp hy

theorem take_one_ne_dash {L : List Char} (h : ∀ a ∈ L, Char.isDigit a) :
    ¬L.take 1 = ['-'] := by
  cases L with
  | nil => simp
  | cons a t =>
    intro he
    simp only [List.take_succ_cons, List.take_zero, List.cons.injEq, and_true] at he
    have hd := h a (List.mem_cons_self a t)
    rw [he] at hd
    exact absurd hd (by decide)

theorem take_one_dot_ne_dash {d1 d2 : List Char} (h : ∀ a ∈ d1, Char.isDigit a) :
    ¬(d1 ++ '.' :: d2).take 1 = ['-'] := by
  cases d1 with
  | nil => simp
  | cons a t =>
    intro he
    simp only [List.cons_append, List.take_succ_cons, List.take_zero,
      List.cons.injEq, and_true] at he
    have hd := h a (List.mem_cons_self a t)
    rw [he] at hd
    exact absurd hd (by decide)

/-- A list of the shape "optional sign, digits, optional dot, digits" (with
no fraction part when there is no dot) prefixed by `\fsp` passes the
`fspMarkerShape` checker. -/
theorem fspMarkerShape_of_parts (s1 d1 s2 d2 : List Char)
    (hs1 : s1 = [] ∨ s1 = ['-'])
    (hd1 : ∀ a ∈ d1, Char.isDigit a)
    (hs2 : s2 = [] ∨ s2 = ['.'])
    (hd2 : ∀ a ∈ d2, Char.isDigit a)
    (hnd : s2 = [] → d2 = []) :
    fspMarkerShape ('\\' :: 'f' :: 's' :: 'p' :: (s1 ++ d1 ++ s2 ++ d2)) = true := by
  have houter : ∀ F : List Char,
      ('\\' :: 'f' :: 's' :: 'p' :: F).take 4 = ['\\', 'f', 's', 'p'] := by
    intro F
    simp
  rcases hs1 with hs1 | hs1 <;> rcases hs2 with hs2 | hs2 <;> subst hs1 <;> subst hs2
  · -- no sign, no dot
    rw [hnd rfl]
    simp only [List.nil_append, List.append_nil]
    simp only [fspMarkerShape]
    rw [if_pos (houter d1)]
    simp only [List.drop_succ_cons, List.drop_zero]
    rw [if_neg (take_one_ne_dash hd1)]
    rw [List.dropWhile_eq_nil_iff.mpr hd1]
    simp
  · -- no sign, dot
    simp only [List.nil_append]
    simp only [fspMarkerShape]
    rw [if_pos (houter _)]
    simp only [List.drop_succ_cons, List.drop_zero]
    have hshape : d1 ++ ['.'] ++ d2 = d1 ++ '.' :: d2 := by
      simp [List.append_assoc]
    rw [hshape]
    rw [if_neg (take_one_dot_ne_dash hd1)]
    rw [List.dropWhile_append_of_pos hd1]
    rw [List.dropWhile_cons_of_neg (by decide)]
    rw [if_pos (by simp)]
    simp only [List.drop_succ_cons, List.drop_zero]
    rw [List.dropWhile_eq_nil_iff.mpr hd2]
    simp
  · -- sign, no dot
    rw [hnd rfl]
    simp only [List.append_nil]
    simp only [fspMarkerShape]
    rw [if_pos (houter _)]
    simp only [List.drop_succ_cons, List.drop_zero]
    have hshape : ['-'] ++ d1 = '-' :: d1 := by simp
    rw [hshape]
    rw [if_pos (show List.take 1 ('-' :: d1) = ['-'] by simp)]
    simp only [List.drop_succ_cons, List.drop_zero]
    rw [List.dropWhile_eq_nil_iff.mpr hd1]
    rw [if_neg (show ¬List.take 1 ([] : List Char) = ['.'] by simp)]
    simp
  · -- sign, dot
    simp only [fspMarkerShape]
    rw [if_pos (houter _)]
    simp only [List.drop_succ_cons, List.drop_zero]
    have hshape : ['-'] ++ d1 ++ ['.'] ++ d2 = '-' :: (d1 ++ '.' :: d2) := by
      simp [List.append_assoc]
    rw [hshape]
    rw [if_pos (show List.take 1 ('-' :: (d1 ++ '.' :: d2)) = ['-'] by simp)]
    simp only [List.drop_succ_cons, List.drop_zero]
    rw [List.dropWhile_append_of_pos hd1]
    rw [List.dropWhile_cons_of_neg (by decide)]
    rw [if_pos (show List.take 1 ('.' :: d2) = ['.'] by simp)]
    simp only [List.drop_succ_cons, List.drop_zero]
    rw [List.dropWhile_eq_nil_iff.mpr hd2]
    simp

/-- The consumed part of every `fsp_pattern` match has the marker shape. -/
theorem fspTailSplit_fst_shape (x : List Char) :
    fspMarkerShape ('\\' :: 'f' :: 's' :: 'p' :: (fspTailSplit x).1) = true := by
  have htk : ∀ L : List Char, ∀ a ∈ List.takeWhile Char.isDigit L, Char.isDigit a :=
    fun L a ha => List.mem_takeWhile_imp ha
  have htkdw : ∀ L : List Char,
      List.takeWhile Char.isDigit (List.dropWhile Char.isDigit L) = [] := by
    intro L
    cases hdw : List.dropWhile Char.isDigit L with
    | nil => rfl
    | cons b t =>
      have hb : Char.isDigit b = false := by
        have := List.head?_dropWhile_not Char.isDigit L
        rw [hdw] at this
        simpa using this
      simp [List.takeWhile_cons, hb]
  by_cases h1 : x.take 1 = ['-']
  · by_cases h2 : (List.dropWhile Char.isDigit (x.drop 1)).take 1 = ['.']
    · have hF : (fspTailSplit x).1 =
          ['-'] ++ List.takeWhile Char.isDigit (x.drop 1) ++ ['.'] ++
            List.takeWhile Char.isDigit ((List.dropWhile Char.isDigit (x.drop 1)).drop 1) := by
        simp only [fspTailSplit]
        rw [if_pos h1]
        dsimp only
        rw [if_pos h2]
      rw [hF]
      exact fspMarkerShape_of_parts _ _ _ _ (Or.inr rfl) (htk _) (Or.inr rfl) (htk _)
        (by intro hc; cases hc)
    · have hF : (fspTailSplit x).1 =
          ['-'] ++ List.takeWhile Char.isDigit (x.drop 1) ++ [] ++
            List.takeWhile Char.isDigit (List.dropWhile Char.isDigit (x.drop 1)) := by
        simp only [fspTailSplit]
        rw [if_pos h1]
        dsimp only
        rw [if_neg h2]
      rw [hF]
      exact fspMarkerShape_of_parts _ _ _ _ (Or.inr rfl) (htk _) (Or.inl rfl) (htk _)
        (fun _ => htkdw _)
  · by_cases h2 : (List.dropWhile Char.isDigit x).take 1 = ['.']
    · have hF : (fspTailSplit x).1 =
          [] ++ List.takeWhile Char.isDigit x ++ ['.'] ++
            List.takeWhile Char.isDigit ((List.dropWhile Char.isDigit x).drop 1) := by
        simp only [fspTailSplit]
        rw [if_neg h1]
        dsimp only
        rw [if_pos h2]
      rw [hF]
      exact fspMarkerShape_of_parts _ _ _ _ (Or.inl rfl) (htk _) (Or.inr rfl) (htk _)
        (by intro hc; cases hc)
    · have hF : (fspTailSplit x).1 =
          [] ++ List.takeWhile Char.isDigit x ++ [] ++
            List.takeWhile Char.isDigit (List.dropWhile Char.isDigit x) := by
        simp only [fspTailSplit]
        rw [if_neg h1]
        dsimp only
        rw [if_neg h2]
      rw [hF]
      exact fspMarkerShape_of_parts _ _ _ _ (Or.inl rfl) (htk _) (Or.inl rfl) (htk _)
        (fun _ => htkdw _)

theorem fspSegs_flatten : ∀ (n : Nat) (cs : List Char), cs.length ≤ n →
    ((fspSegs cs).map Prod.snd).flatten = cs := by
  intro n
  induction n with
  | zero =>
    intro cs h
    have hcs : cs = [] := List.length_eq_zero.mp (Nat.le_zero.mp h)
    subst hcs
    rfl
  | succ n ih =>
    intro cs hlen
    cases cs with
    | nil => rfl
    | cons c cs =>
      simp only [List.length_cons] at hlen
      rw [fspSegs_cons]
      by_cases h : c = '\\' ∧ cs.take 3 = ['f', 's', 'p']
      · rw [if_pos h]
        simp only [List.map_cons, List.flatten_cons]
        have hb : (fspTailSplit (cs.drop 3)).2.length ≤ n := by
          have := fspTailSplit_snd_length_le (cs.drop 3)
          simp only [List.length_drop] at this
          omega
        rw [ih _ hb]
        have hcs3 : cs = 'f' :: 's' :: 'p' :: cs.drop 3 := eq_take_append_drop h.2
        conv_rhs => rw [hcs3]
        simp only [List.cons_append]
        rw [fspTailSplit_append]
      · rw [if_neg h]
        simp only [List.map_cons, List.flatten_cons, List.cons_append, List.nil_append]
        rw [ih cs (by omega)]

theorem fspStrip_eq_kept : ∀ (n : Nat) (cs : List Char), cs.length ≤ n →
    fspStrip cs = (((fspSegs cs).filter (fun s => !s.1)).map Prod.snd).flatten := by
  intro n
  induction n with
  | zero =>
    intro cs h
    have hcs : cs = [] := List.length_eq_zero.mp (Nat.le_zero.mp h)
    subst hcs
    rfl
  | succ n ih =>
    intro cs hlen
    cases cs with
    | nil => rfl
    | cons c cs =>
      simp only [List.length_cons] at hlen
      rw [fspStrip_cons, fspSegs_cons]
      by_cases h : c = '\\' ∧ cs.take 3 = ['f', 's', 'p']
      · rw [if_pos h, if_pos h]
        have hb : (fspTailSplit (cs.drop 3)).2.length ≤ n := by
          have := fspTailSplit_snd_length_le (cs.drop 3)
          simp only [List.length_drop] at this
          omega
        rw [List.filter_cons_of_neg (by simp)]
        exact ih _ hb
      · rw [if_neg h, if_neg h]
        rw [List.filter_cons_of_pos (by simp)]
        simp only [List.map_cons, List.flatten_cons, List.cons_append, List.nil_append]
        rw [ih cs (by omega)]

theorem fspSegs_marker_shapes : ∀ (n : Nat) (cs : List Char), cs.length ≤ n →
    (fspSegs cs).all (fun s => !s.1 || fspMarkerShape s.2) = true := by
  intro n
  induction n with
  | zero =>
    intro cs h
    have hcs : cs = [] := List.length_eq_zero.mp (Nat.le_zero.mp h)
    subst hcs
    rfl
  | succ n ih =>
    intro cs hlen
    cases cs with
    | nil => rfl
    | cons c cs =>
      simp only [List.length_cons] at hlen
      rw [fspSegs_cons]
      by_cases h : c = '\\' ∧ cs.take 3 = ['f', 's', 'p']
      · rw [if_pos h]
        have hb : (fspTailSplit (cs.drop 3)).2.length ≤ n := by
          have := fspTailSplit_snd_length_le (cs.drop 3)
          simp only [List.length_drop] at this
          omega
        simp only [List.all_cons, ih _ hb, Bool.and_true]
        have := fspTailSplit_fst_shape (cs.drop 3)
        rw [h.1]
        simp [this]
      · rw [if_neg h]
        simp only [List.all_cons, ih cs (by omega), Bool.and_true]
        simp

theorem hasFspSub_false_segs : ∀ (n : Nat) (cs : List Char), cs.length ≤ n →
    hasFspSub cs = false → ∀ s ∈ fspSegs cs, s.1 = false := by
  intro n
  induction n with
  | zero =>
    intro cs h _
    have hcs : cs = [] := List.length_eq_zero.mp (Nat.le_zero.mp h)
    subst hcs
    intro s hs
    cases hs
  | succ n ih =>
    intro cs hlen hno
    cases cs with
    | nil => intro s hs; cases hs
    | cons c cs =>
      simp only [List.length_cons] at hlen
      simp only [hasFspSub] at hno
      by_cases h : c = '\\' ∧ cs.take 3 = ['f', 's', 'p']
      · rw [if_pos h] at hno
        cases hno
      · rw [if_neg h] at hno
        rw [fspSegs_cons, if_neg h]
        intro s hs
        rcases List.mem_cons.mp hs with hs | hs
        · rw [hs]
        · exact ih cs (by omega) hno s hs

theorem spacingStep_true_eq_kept (line : List Char) :
    spacingStep true line = (((fspSegs line).filter (fun s => !s.1)).map Prod.snd).flatten := by
  by_cases hf : hasFspSub line
  · simp only [spacingStep, hf, Bool.and_self, if_pos]
    exact fspStrip_eq_kept line.length line (le_refl _)
  · simp only [spacingStep, hf, Bool.and_false, Bool.false_eq_true, if_false]
    have hall := hasFspSub_false_segs line.length line (le_refl _) (by simpa using hf)
    have hfilter : (fspSegs line).filter (fun s => !s.1) = fspSegs line := by
      rw [List.filter_eq_self]
      intro a ha
      simp [hall a ha]
    rw [hfilter]
    exact (fspSegs_flatten line.length line (le_refl _)).symm

theorem spacingStep_false (line : List Char) : spacingStep false line = line := rfl

/-- Claim C4: with the spacing-removal flag enabled, the spacing step of the
engine decomposes the line into kept text and `\fsp`-marker matches
(backslash + `fsp` + optional sign + optional digits + optional decimal
fraction), deletes every match entirely and keeps the surrounding text
untouched and in order; with the flag disabled the step leaves the line in
place.  In particular `Text\fsp2.5 more` rewrites to `Text more` when the
flag is on and is unchanged when it is off. -/
theorem spacing_removal_removes_all_markers :
    (∀ line : List Char, ((fspSegs line).map Prod.snd).flatten = line) ∧
    (∀ line : List Char,
      spacingStep true line = (((fspSegs line).filter (fun s => !s.1)).map Prod.snd).flatten) ∧
    (∀ line : List Char, (fspSegs line).all (fun s => !s.1 || fspMarkerShape s.2) = true) ∧
    (∀ line : List Char, spacingStep false line = line) ∧
    processLineStr [] "Arial" true "Text\\fsp2.5 more" = "Text more" ∧
    processLineStr [] "Arial" false "Text\\fsp2.5 more" = "Text\\fsp2.5 more" :=
  ⟨fun line => fspSegs_flatten line.length line (le_refl _),
   spacingStep_true_eq_kept,
   fun line => fspSegs_marker_shapes line.length line (le_refl _),
   spacingStep_false,
   by decide,
   by decide⟩

/-! ### Lines without inline markers pass through the font-tag scan -/

theorem fnSub_id_of_no_markers :
    ∀ (n : Nat) (m : List (String × String)) (d : String) (cs : List Char),
      cs.length ≤ n → fnMarkers cs = [] → fnSub m d cs = cs := by
  intro n
  induction n with
  | zero =>
    intro m d cs h _
    have hcs : cs = [] := List.length_eq_zero.mp (Nat.le_zero.mp h)
    subst hcs
    rfl
  | succ n ih =>
    intro m d cs hlen hm
    cases cs with
    | nil => rfl
    | cons c cs =>
      simp only [List.length_cons] at hlen
      rw [fnMarkers_cons] at hm
      rw [fnSub_cons]
      by_cases h : c = '\\' ∧ cs.take 2 = ['f', 'n']
      · rw [if_pos h] at hm ⊢
        by_cases hg : (cs.drop 2).takeWhile fnGroupChar = []
        · rw [if_pos hg] at hm ⊢
          have hrest : (cs.drop 2).length ≤ n := by
            simp only [List.length_drop]
            omega
          rw [ih m d (cs.drop 2) hrest hm]
          have hcs2 : cs = 'f' :: 'n' :: cs.drop 2 := eq_take_append_drop h.2
          conv_rhs => rw [hcs2]
        · rw [if_neg hg] at hm
          cases hm
      · rw [if_neg h] at hm ⊢
        rw [ih m d cs (by omega) hm]

/-- Claim C5 counterexample: the line `a\fsp1` is not a style-definition
line and contains no inline font marker, yet with the spacing-removal flag
enabled the engine does not return it unchanged — the rewrite is not the
identity on such lines for every flag value. -/
theorem pass_through_not_identity_under_spacing :
    styleMatch "a\\fsp1".data = none ∧ fnMarkers "a\\fsp1".data = [] ∧
    processLine [] "Arial" true "a\\fsp1".data ≠ "a\\fsp1".data :=
  ⟨by decide, by decide, by decide⟩

/-- Claim C5 (amended): a line that is not a style-definition line and has
no inline font marker is returned unchanged by the engine, for every
mapping and default font, provided the spacing-removal flag is off or the
line has no `\fsp` substring. -/
theorem unrelated_line_identity (m : List (String × String)) (d : String) (rs : Bool)
    (line : List Char) (h1 : styleMatch line = none) (h2 : fnMarkers line = [])
    (h3 : rs = false ∨ hasFspSub line = false) :
    processLine m d rs line = line := by
  have hstep : spacingStep rs line = line := by
    rcases h3 with h3 | h3
    · rw [h3]
      rfl
    · simp [spacingStep, h3]
  simp only [processLine, hstep, h1]
  by_cases hfn : hasFnSub line
  · simp only [hfn, if_pos]
    exact fnSub_id_of_no_markers line.length m d line (le_refl _) h2
  · simp [hfn]

theorem unrelated_line_identity_witness :
    styleMatch "hello world\n".data = none ∧ fnMarkers "hello world\n".data = [] ∧
    (true = false ∨ hasFspSub "hello world\n".data = false) ∧
    processLine [("A", "B")] "X" true "hello world\n".data = "hello world\n".data :=
  ⟨by decide, by decide, by decide,
   unrelated_line_identity [("A", "B")] "X" true "hello world\n".data
     (by decide) (by decide) (by decide)⟩

/-- Claim C3 counterexample: on the dialogue line
`{\fnComic Sans MS}Hello{\fnArial}` with mapping
`{"Comic Sans MS": "Arial"}` and default font `Verdana`, the engine does
not produce `{\fnArial}Hello{\fnArial}` (with either spacing flag): the
second marker's font `Arial` is not a key of the mapping, so it is
replaced by the default font. -/
theorem dialogue_scenario_claimed_output_wrong :
    processLineStr [("Comic Sans MS", "Arial")] "Verdana" false
        "\x7b\\fnComic Sans MS\x7dHello\x7b\\fnArial\x7d" ≠
      "\x7b\\fnArial\x7dHello\x7b\\fnArial\x7d" ∧
    processLineStr [("Comic Sans MS", "Arial")] "Verdana" true
        "\x7b\\fnComic Sans MS\x7dHello\x7b\\fnArial\x7d" ≠
      "\x7b\\fnArial\x7dHello\x7b\\fnArial\x7d" :=
  ⟨by decide, by decide⟩

/-- Claim C3 (amended): rewriting the dialogue line
`{\fnComic Sans MS}Hello{\fnArial}` with mapping
`{"Comic Sans MS": "Arial"}` and default font `Verdana` yields exactly
`{\fnArial}Hello{\fnVerdana}` — the unmapped font name `Arial` falls back
to the default font. -/
theorem dialogue_scenario_actual_output (rs : Bool) :
    processLineStr [("Comic Sans MS", "Arial")] "Verdana" rs
        "\x7b\\fnComic Sans MS\x7dHello\x7b\\fnArial\x7d" =
      "\x7b\\fnArial\x7dHello\x7b\\fnVerdana\x7d" := by
  cases rs <;> decide

/-- Claim C9: the per-line rewrite is not idempotent when one mapping
entry's before-name equals another entry's after-name: re-running the
engine can re-map an already rewritten font. -/
theorem rewrite_engine_not_idempotent :
    ∃ (m : List (String × String)) (d : String) (rs : Bool) (line : List Char),
      (∃ p ∈ m, ∃ q ∈ m, p ≠ q ∧ q.1 = p.2) ∧
      processLine m d rs (processLine m d rs line) ≠ processLine m d rs line := by
  refine ⟨[("A", "B"), ("B", "C")], "D", false, "\x7b\\fnA\x7d".data, ?_, ?_⟩
  · exact ⟨("A", "B"), by decide, ("B", "C"), by decide, by decide, rfl⟩
  · decide

/-- Claim C7 counterexample: a persisted legacy configuration that is the
empty bare list does not load as `{fonts: [], removeFontSpacing: true}` —
the empty list is falsy, so `load_fonts_config` regenerates the default
configuration instead of adopting it. -/
theorem legacy_empty_list_not_adopted :
    loadConfig (some (.legacy [])) = ⟨[("Default", "Arial")], true⟩ ∧
    loadConfig (some (.legacy [])) ≠ ⟨[], true⟩ :=
  ⟨by decide, by decide⟩

/-- Claim C7 (amended): `load()` applied to a persisted legacy
configuration that is a nonempty bare list of `{fontBefore, fontAfter}`
pairs yields a `Config` whose fonts are the listed pairs, in order, and
whose `removeFontSpacing` is `true`. -/
theorem legacy_nonempty_list_upgraded (pairs : List (String × String)) (h : pairs ≠ []) :
    loadConfig (some (.legacy pairs)) = ⟨pairs, true⟩ := by
  cases pairs with
  | nil => exact absurd rfl h
  | cons a t => rfl

theorem legacy_nonempty_list_upgraded_witness :
    ([("A", "B")] : List (String × String)) ≠ [] ∧
    loadConfig (some (.legacy [("A", "B")])) = ⟨[("A", "B")], true⟩ :=
  ⟨by decide, legacy_nonempty_list_upgraded [("A", "B")] (by decide)⟩

/-- Claim C6 counterexample: for an input file without a leading
byte-order mark, the output still starts with one (`utf-8-sig` always
emits it on write), so the byte-order-mark status of the input is not
preserved. -/
theorem bom_added_to_unsigned_input :
    "abc".data.take 1 ≠ [bomChar] ∧
    (processFile [] "Arial" false "abc".data).take 1 = [bomChar] :=
  ⟨by decide, by decide⟩

theorem pyReadlines_ne_nil (cs : List Char) (h : cs ≠ []) : pyReadlines cs ≠ [] := by
  cases cs with
  | nil => exact absurd rfl h
  | cons c cs =>
    simp only [pyReadlines]
    by_cases hn : c = '\n'
    · rw [if_pos hn]
      simp
    · rw [if_neg hn]
      cases pyReadlines cs <;> simp

/-- Claim C6 (amended): a leading byte-order mark, if present, is stripped
on read; on write, the `utf-8-sig` encoder emits a byte-order mark with the
first actual write, i.e. exactly when at least one line is written — so
every nonempty input (after byte-order-mark stripping) produces an output
carrying the signature whether or not the input did, while an empty or
byte-order-mark-only input produces an empty output without one.  The input
file's byte-order-mark status is not preserved. -/
theorem bom_stripped_on_read_emitted_on_write (m : List (String × String)) (d : String)
    (rs : Bool) (content : List Char) (h : content.take 1 ≠ [bomChar]) :
    processFile m d rs (bomChar :: content) = processFile m d rs content ∧
    (content ≠ [] → (processFile m d rs content).take 1 = [bomChar]) ∧
    processFile m d rs [] = [] ∧
    processFile m d rs [bomChar] = [] := by
  have hstrip : stripBOM content = content := by
    unfold stripBOM
    rw [if_neg h]
  refine ⟨?_, ?_, rfl, rfl⟩
  · have h1 : stripBOM (bomChar :: content) = content := by
      unfold stripBOM
      rw [if_pos (by simp)]
      simp
    unfold processFile
    rw [h1, hstrip]
  · intro hne
    unfold processFile
    rw [hstrip]
    cases hrl : pyReadlines content with
    | nil => exact absurd hrl (pyReadlines_ne_nil content hne)
    | cons l ls => simp

theorem bom_stripped_on_read_emitted_on_write_witness :
    "a\n".data.take 1 ≠ [bomChar] ∧ "a\n".data ≠ [] ∧
    (processFile [] "Arial" false (bomChar :: "a\n".data) =
        processFile [] "Arial" false "a\n".data ∧
      (processFile [] "Arial" false "a\n".data).take 1 = [bomChar] ∧
      processFile [] "Arial" false [] = [] ∧
      processFile [] "Arial" false [bomChar] = []) :=
  ⟨by decide, by decide,
   ⟨(bom_stripped_on_read_emitted_on_write [] "Arial" false "a\n".data (by decide)).1,
    (bom_stripped_on_read_emitted_on_write [] "Arial" false "a\n".data (by decide)).2.1
      (by decide),
    (bom_stripped_on_read_emitted_on_write [] "Arial" false "a\n".data (by decide)).2.2.1,
    (bom_stripped_on_read_emitted_on_write [] "Arial" false "a\n".data (by decide)).2.2.2⟩⟩

/-- Claim C10: when the loaded font mapping has no entry with key
`"Default"`, the batch uses the literal `"Arial"` as the default
replacement font, and every font name absent from the mapping is replaced
by `"Arial"`. -/
theorem default_font_arial_when_unmapped (fonts : List (String × String)) (name : String)
    (h1 : ∀ p ∈ fonts, p.1 ≠ "Default") (h2 : ∀ p ∈ fonts, p.1 ≠ name) :
    startDefaultFont fonts = "Arial" ∧
    pyGet fonts name (startDefaultFont fonts) = "Arial" := by
  have key : ∀ (k dflt : String), (∀ p ∈ fonts, p.1 ≠ k) → pyGet fonts k dflt = dflt := by
    intro k dflt hk
    unfold pyGet
    cases hfind : fonts.reverse.find? (fun p => p.1 == k) with
    | none => rfl
    | some p =>
      have hp := List.mem_of_find?_eq_some hfind
      rw [List.mem_reverse] at hp
      have heq : p.1 = k := by simpa using List.find?_some hfind
      exact absurd heq (hk p hp)
  have hA : startDefaultFont fonts = "Arial" := key "Default" "Arial" h1
  refine ⟨hA, ?_⟩
  rw [key name _ h2, hA]

theorem default_font_arial_when_unmapped_witness :
    (∀ p ∈ ([("A", "B")] : List (String × String)), p.1 ≠ "Default") ∧
    (∀ p ∈ ([("A", "B")] : List (String × String)), p.1 ≠ "C") ∧
    (startDefaultFont [("A", "B")] = "Arial" ∧
      pyGet [("A", "B")] "C" (startDefaultFont [("A", "B")]) = "Arial") :=
  ⟨by decide, by decide,
   default_font_arial_when_unmapped [("A", "B")] "C" (by decide) (by decide)⟩

/-! ### Decomposition of a successful style-pattern match -/

theorem splits0_mem : ∀ (cs g r : List Char), (g, r) ∈ splits0 cs → cs = g ++ ',' :: r := by
  intro cs
  induction cs with
  | nil =>
    intro g r h
    cases h
  | cons c cs ih =>
    intro g r h
    simp only [splits0] at h
    rw [List.mem_append] at h
    rcases h with h | h
    · by_cases hc : c = ','
      · rw [if_pos hc] at h
        rw [List.mem_singleton, Prod.mk.injEq] at h
        obtain ⟨hg, hr⟩ := h
        subst hg
        subst hr
        subst hc
        rfl
      · rw [if_neg hc] at h
        cases h
    · by_cases hn : c = '\n'
      · rw [if_pos hn] at h
        cases h
      · rw [if_neg hn] at h
        rw [List.mem_map] at h
        obtain ⟨⟨a, b⟩, hp, heq⟩ := h
        rw [Prod.mk.injEq] at heq
        obtain ⟨hg, hr⟩ := heq
        subst hg
        subst hr
        have := ih a b hp
        rw [this]
        rfl

theorem splits1_mem (cs g r : List Char) (h : (g, r) ∈ splits1 cs) :
    cs = g ++ ',' :: r := by
  cases cs with
  | nil => cases h
  | cons c cs =>
    simp only [splits1] at h
    by_cases hn : c = '\n'
    · rw [if_pos hn] at h
      cases h
    · rw [if_neg hn] at h
      rw [List.mem_map] at h
      obtain ⟨⟨a, b⟩, hp, heq⟩ := h
      rw [Prod.mk.injEq] at heq
      obtain ⟨hg, hr⟩ := heq
      subst hg
      subst hr
      have := splits0_mem cs a b hp
      rw [this]
      rfl

theorem styleMatch_decomp (line g1 g2 : List Char)
    (h : styleMatch line = some (g1, g2)) :
    ∃ r, line =
      'S' :: 't' :: 'y' :: 'l' :: 'e' :: ':' :: ' ' :: (g1 ++ ',' :: (g2 ++ ',' :: r)) := by
  unfold styleMatch at h
  by_cases hpre : line.take 7 = ['S', 't', 'y', 'l', 'e', ':', ' ']
  · rw [if_pos hpre] at h
    obtain ⟨p, hp, hfp⟩ := List.exists_of_findSome?_eq_some h
    cases hh : (splits1 p.2).head? with
    | none =>
      rw [hh] at hfp
      cases hfp
    | some q =>
      rw [hh] at hfp
      simp only [Option.map_some', Option.some.injEq, Prod.mk.injEq] at hfp
      obtain ⟨hg1, hg2⟩ := hfp
      obtain ⟨t, ht⟩ := List.head?_eq_some_iff.mp hh
      have hq : (q.1, q.2) ∈ splits1 p.2 := by
        rw [ht]
        simp
      have hd2 : p.2 = q.1 ++ ',' :: q.2 := splits1_mem _ _ _ hq
      have hp' : (p.1, p.2) ∈ splits1 (line.drop 7) := by simpa using hp
      have hd1 : line.drop 7 = p.1 ++ ',' :: p.2 := splits1_mem _ _ _ hp'
      refine ⟨q.2, ?_⟩
      have hline : line = ['S', 't', 'y', 'l', 'e', ':', ' '] ++ line.drop 7 :=
        eq_take_append_drop hpre
      rw [hline, hd1, hd2, hg1, hg2]
      rfl
  · rw [if_neg hpre] at h
    cases h

/-! ### Python `str.replace(pat, rep, 1)`: first-occurrence replacement -/

theorem replaceFirst_spec (pat rep : List Char) :
    ∀ s : List Char, (∃ a b, s = a ++ pat ++ b) →
      ∃ pre post, s = pre ++ pat ++ post ∧
        (∀ a b, s = a ++ pat ++ b → pre.length ≤ a.length) ∧
        replaceFirst pat rep s = pre ++ rep ++ post := by
  intro s
  induction s with
  | nil =>
    rintro ⟨a, b, hab⟩
    rw [List.append_assoc] at hab
    have h0 := List.append_eq_nil.mp hab.symm
    have h1 := List.append_eq_nil.mp h0.2
    have hpat := h1.1
    refine ⟨[], [], by simp [hpat], fun a b _ => by simp, ?_⟩
    simp only [replaceFirst, hpat, List.isPrefixOf]
    simp
  | cons c cs ih =>
    intro hex
    by_cases hpre : pat.isPrefixOf (c :: cs)
    · have hp : pat <+: c :: cs := List.isPrefixOf_iff_prefix.mp hpre
      obtain ⟨t, ht⟩ := hp
      have htd : t = (c :: cs).drop pat.length := by
        rw [← ht, List.drop_left]
      refine ⟨[], t, by simp [← ht], fun a b _ => by simp, ?_⟩
      simp only [replaceFirst]
      rw [if_pos hpre, ← htd]
      simp
    · obtain ⟨a, b, hab⟩ := hex
      cases a with
      | nil =>
        exfalso
        apply hpre
        rw [List.nil_append] at hab
        exact List.isPrefixOf_iff_prefix.mpr ⟨b, hab.symm⟩
      | cons a0 a' =>
        simp only [List.cons_append, List.cons.injEq] at hab
        obtain ⟨hc, hcs⟩ := hab
        obtain ⟨pre', post', hs, hmin, hrw⟩ := ih ⟨a', b, hcs⟩
        refine ⟨c :: pre', post', ?_, ?_, ?_⟩
        · simp only [List.cons_append, List.cons.injEq, true_and]
          exact hs
        · intro x y hxy
          cases x with
          | nil =>
            exfalso
            apply hpre
            rw [List.nil_append] at hxy
            exact List.isPrefixOf_iff_prefix.mpr ⟨y, hxy.symm⟩
          | cons x0 x' =>
            simp only [List.cons_append, List.cons.injEq] at hxy
            have := hmin x' y hxy.2
            simp only [List.length_cons]
            omega
        · simp only [replaceFirst]
          rw [if_neg hpre, hrw]
          simp

/-! ### `str.strip()` returns an infix of its argument -/

theorem pyStrip_infix (g : List Char) : ∃ u v, g = u ++ pyStrip g ++ v := by
  refine ⟨g.takeWhile pySpace,
    ((g.dropWhile pySpace).reverse.takeWhile pySpace).reverse, ?_⟩
  unfold pyStrip
  conv_lhs => rw [← List.takeWhile_append_dropWhile pySpace g]
  rw [List.append_assoc]
  congr 1
  have h := List.takeWhile_append_dropWhile pySpace (g.dropWhile pySpace).reverse
  have h2 := congrArg List.reverse h
  rw [List.reverse_append, List.reverse_reverse] at h2
  exact h2.symm

/-- Claim C1: for every line whose spacing-removed form matches the
style-definition pattern with groups `g1` (style name) and `g2` (font
field), the engine replaces the first textual occurrence of the trimmed
font name with its mapped replacement (the default font when the name is
not a key of the mapping), leaves every other character of the line
unchanged, and performs no inline font-tag rewriting: the output is
exactly `pre ++ replacement ++ post` where `pre ++ fontName ++ post` is
the earliest decomposition of the spacing-removed line. -/
theorem style_line_first_occurrence_replaced (m : List (String × String)) (d : String)
    (rs : Bool) (line g1 g2 : List Char)
    (h : styleMatch (spacingStep rs line) = some (g1, g2)) :
    ∃ pre post,
      spacingStep rs line = pre ++ pyStrip g2 ++ post ∧
      (∀ a b, spacingStep rs line = a ++ pyStrip g2 ++ b → pre.length ≤ a.length) ∧
      processLine m d rs line =
        pre ++ (pyGet m (String.mk (pyStrip g2)) d).data ++ post := by
  obtain ⟨r, hr⟩ := styleMatch_decomp _ _ _ h
  obtain ⟨u, v, huv⟩ := pyStrip_infix g2
  have hocc : ∃ a b, spacingStep rs line = a ++ pyStrip g2 ++ b := by
    refine ⟨'S' :: 't' :: 'y' :: 'l' :: 'e' :: ':' :: ' ' :: (g1 ++ ',' :: u),
      v ++ ',' :: r, ?_⟩
    rw [hr]
    conv_lhs => rw [huv]
    simp [List.append_assoc]
  obtain ⟨pre, post, hs, hmin, hrw⟩ :=
    replaceFirst_spec (pyStrip g2) (pyGet m (String.mk (pyStrip g2)) d).data
      (spacingStep rs line) hocc
  refine ⟨pre, post, hs, hmin, ?_⟩
  simp only [processLine]
  rw [h]
  exact hrw

theorem style_line_first_occurrence_replaced_witness :
    styleMatch (spacingStep false "Style: Default,Comic Sans MS,20,bold".data) =
      some ("Default".data, "Comic Sans MS".data) ∧
    (∃ pre post,
      spacingStep false "Style: Default,Comic Sans MS,20,bold".data =
        pre ++ pyStrip "Comic Sans MS".data ++ post ∧
      (∀ a b,
        spacingStep false "Style: Default,Comic Sans MS,20,bold".data =
          a ++ pyStrip "Comic Sans MS".data ++ b → pre.length ≤ a.length) ∧
      processLine [("Comic Sans MS", "Arial")] "Verdana" false
          "Style: Default,Comic Sans MS,20,bold".data =
        pre ++ (pyGet [("Comic Sans MS", "Arial")]
          (String.mk (pyStrip "Comic Sans MS".data)) "Verdana").data ++ post) :=
  ⟨by decide,
   style_line_first_occurrence_replaced [("Comic Sans MS", "Arial")] "Verdana" false
     "Style: Default,Comic Sans MS,20,bold".data "Default".data "Comic Sans MS".data
     (by decide)⟩

/-! ### Inline font-tag rewriting: marker-by-marker behaviour -/

/-- A replacement font name that round-trips through the marker syntax:
nonempty and free of backslashes and closing braces. -/
def goodFontB (s : String) : Bool :=
  !s.data.isEmpty && s.data.all fnGroupChar

theorem goodFontB_spec (s : String) (h : goodFontB s = true) :
    s.data ≠ [] ∧ ∀ a ∈ s.data, fnGroupChar a := by
  unfold goodFontB at h
  rw [Bool.and_eq_true] at h
  constructor
  · intro hnil
    have h1 := h.1
    rw [hnil] at h1
    simp at h1
  · exact fun a ha => List.all_eq_true.mp h.2 a ha

theorem pyGet_good (m : List (String × String)) (k d : String)
    (hd : goodFontB d = true) (hm : ∀ p ∈ m, goodFontB p.2 = true) :
    goodFontB (pyGet m k d) = true := by
  unfold pyGet
  cases hfind : m.reverse.find? (fun p => p.1 == k) with
  | none => exact hd
  | some p =>
    have hp := List.mem_of_find?_eq_some hfind
    rw [List.mem_reverse] at hp
    exact hm p hp

theorem take_one_eq_singleton {l : List Char} {x : Char} :
    l.take 1 = [x] ↔ l.head? = some x := by
  cases l <;> simp

theorem drop_length_takeWhile (p : Char → Bool) (l : List Char) :
    l.drop (l.takeWhile p).length = l.dropWhile p := by
  induction l with
  | nil => rfl
  | cons a t ih =>
    by_cases hp : p a
    · simp [List.takeWhile_cons, List.dropWhile_cons, hp, ih]
    · simp [List.takeWhile_cons, List.dropWhile_cons, hp]

theorem takeWhile_eq_nil_of_head (p : Char → Bool) (l : List Char)
    (h : ∀ x, l.head? = some x → p x = false) : l.takeWhile p = [] := by
  cases l with
  | nil => rfl
  | cons a t => simp [List.takeWhile_cons, h a rfl]

theorem fnSub_head (m : List (String × String)) (d : String) (cs : List Char) :
    (fnSub m d cs).head? = cs.head? := by
  cases cs with
  | nil => rfl
  | cons c cs =>
    rw [fnSub_cons]
    by_cases h : c = '\\' ∧ cs.take 2 = ['f', 'n']
    · rw [if_pos h]
      by_cases hg : (cs.drop 2).takeWhile fnGroupChar = []
      · rw [if_pos hg]
        rfl
      · rw [if_neg hg]
        rfl
    · rw [if_neg h]
      rfl

theorem fnSub_take_two (m : List (String × String)) (d : String) (cs : List Char)
    (h : (fnSub m d cs).take 2 = ['f', 'n']) : cs.take 2 = ['f', 'n'] := by
  cases cs with
  | nil => simp [fnSub_nil] at h
  | cons c cs =>
    rw [fnSub_cons] at h
    by_cases hat : c = '\\' ∧ cs.take 2 = ['f', 'n']
    · rw [if_pos hat] at h
      exfalso
      by_cases hg : (cs.drop 2).takeWhile fnGroupChar = []
      · rw [if_pos hg] at h
        simp only [List.take_succ_cons, List.take_zero, List.cons.injEq, and_true] at h
        exact absurd h.2 (by decide)
      · rw [if_neg hg] at h
        simp only [List.take_succ_cons, List.take_zero, List.cons.injEq, and_true] at h
        exact absurd h.2 (by decide)
    · rw [if_neg hat] at h
      simp only [List.take_succ_cons, List.take_zero, List.cons.injEq] at h ⊢
      refine ⟨h.1, ?_⟩
      have h2 : (fnSub m d cs).take 1 = ['n'] := by
        cases hfs : fnSub m d cs with
        | nil =>
          rw [hfs] at h
          simp at h
        | cons x xs =>
          rw [hfs] at h
          exact h.2
      have h3 : cs.head? = some 'n' := by
        rw [← fnSub_head m d cs]
        exact take_one_eq_singleton.mp h2
      have := take_one_eq_singleton.mpr h3
      simpa using this

/-- The scan of `fnSub`, replayed on its own output: when every replacement
font is nonempty and free of `\` and `}`, the markers of the rewritten line
are exactly the mapped markers of the original line. -/
theorem fnMarkers_fnSub (m : List (String × String)) (d : String)
    (hd : goodFontB d = true) (hm : ∀ p ∈ m, goodFontB p.2 = true) :
    ∀ (n : Nat) (cs : List Char), cs.length ≤ n →
      fnMarkers (fnSub m d cs) = (fnMarkers cs).map (fun s => pyGet m s d) := by
  intro n
  induction n with
  | zero =>
    intro cs h
    have hcs : cs = [] := List.length_eq_zero.mp (Nat.le_zero.mp h)
    subst hcs
    rfl
  | succ n ih =>
    intro cs hlen
    cases cs with
    | nil => rfl
    | cons c cs =>
      simp only [List.length_cons] at hlen
      rw [fnSub_cons]
      by_cases h : c = '\\' ∧ cs.take 2 = ['f', 'n']
      · rw [if_pos h]
        by_cases hg : (cs.drop 2).takeWhile fnGroupChar = []
        · rw [if_pos hg]
          rw [fnMarkers_cons]
          rw [if_pos (show c = '\\' ∧ ('f' :: 'n' :: fnSub m d (cs.drop 2)).take 2 = ['f', 'n']
            from ⟨h.1, by simp⟩)]
          simp only [List.drop_succ_cons, List.drop_zero]
          have hgrp' : (fnSub m d (cs.drop 2)).takeWhile fnGroupChar = [] := by
            apply takeWhile_eq_nil_of_head
            intro x hx
            rw [fnSub_head] at hx
            cases hrest : cs.drop 2 with
            | nil =>
              rw [hrest] at hx
              cases hx
            | cons r0 rt =>
              rw [hrest] at hx hg
              have hx0 : r0 = x := by
                simpa using hx
              by_cases hr0 : fnGroupChar r0
              · rw [List.takeWhile_cons_of_pos hr0] at hg
                cases hg
              · rw [← hx0]
                simpa using hr0
          rw [if_pos hgrp']
          conv_rhs => rw [fnMarkers_cons, if_pos h, if_pos hg]
          exact ih (cs.drop 2) (by simp only [List.length_drop]; omega)
        · rw [if_neg hg]
          rw [fnMarkers_cons]
          rw [if_pos (show c = '\\' ∧
              ('f' :: 'n' :: ((pyGet m (String.mk ((cs.drop 2).takeWhile fnGroupChar)) d).data ++
                fnSub m d ((cs.drop 2).drop ((cs.drop 2).takeWhile fnGroupChar).length))).take 2 =
              ['f', 'n'] from ⟨h.1, by simp⟩)]
          simp only [List.drop_succ_cons, List.drop_zero]
          have hv := goodFontB_spec _
            (pyGet_good m (String.mk ((cs.drop 2).takeWhile fnGroupChar)) d hd hm)
          have hrest2 : (cs.drop 2).drop ((cs.drop 2).takeWhile fnGroupChar).length =
              (cs.drop 2).dropWhile fnGroupChar := drop_length_takeWhile _ _
          have htail : (fnSub m d
              ((cs.drop 2).drop ((cs.drop 2).takeWhile fnGroupChar).length)).takeWhile
                fnGroupChar = [] := by
            apply takeWhile_eq_nil_of_head
            intro x hx
            rw [fnSub_head, hrest2] at hx
            have := List.head?_dropWhile_not fnGroupChar (cs.drop 2)
            rw [hx] at this
            simpa using this
          have hTW : ((pyGet m (String.mk ((cs.drop 2).takeWhile fnGroupChar)) d).data ++
              fnSub m d ((cs.drop 2).drop ((cs.drop 2).takeWhile fnGroupChar).length)).takeWhile
                fnGroupChar =
              (pyGet m (String.mk ((cs.drop 2).takeWhile fnGroupChar)) d).data := by
            rw [List.takeWhile_append_of_pos hv.2, htail, List.append_nil]
          rw [hTW]
          rw [if_neg hv.1]
          rw [List.drop_left]
          conv_rhs => rw [fnMarkers_cons, if_pos h, if_neg hg]
          simp only [List.map_cons]
          congr 1
          exact ih _ (by simp only [List.length_drop]; omega)
      · rw [if_neg h]
        rw [fnMarkers_cons]
        rw [if_neg (show ¬(c = '\\' ∧ (fnSub m d cs).take 2 = ['f', 'n']) from
          fun hc => h ⟨hc.1, fnSub_take_two m d cs hc.2⟩)]
        conv_rhs => rw [fnMarkers_cons, if_neg h]
        exact ih cs (by omega)

/-- The font-tag scan covers the line exactly: its segments concatenate
back to the line. -/
theorem fnSegs_flatten : ∀ (n : Nat) (cs : List Char), cs.length ≤ n →
    ((fnSegs cs).map Prod.snd).flatten = cs := by
  intro n
  induction n with
  | zero =>
    intro cs h
    have hcs : cs = [] := List.length_eq_zero.mp (Nat.le_zero.mp h)
    subst hcs
    rfl
  | succ n ih =>
    intro cs hlen
    cases cs with
    | nil => rfl
    | cons c cs =>
      simp only [List.length_cons] at hlen
      rw [fnSegs_cons]
      by_cases h : c = '\\' ∧ cs.take 2 = ['f', 'n']
      · rw [if_pos h]
        have hcs2 : cs = 'f' :: 'n' :: cs.drop 2 := eq_take_append_drop h.2
        by_cases hg : (cs.drop 2).takeWhile fnGroupChar = []
        · rw [if_pos hg]
          simp only [List.map_cons, List.flatten_cons]
          rw [ih (cs.drop 2) (by simp only [List.length_drop]; omega)]
          conv_rhs => rw [hcs2]
          rfl
        · rw [if_neg hg]
          simp only [List.map_cons, List.flatten_cons]
          rw [ih _ (by simp only [List.length_drop]; omega)]
          rw [drop_length_takeWhile]
          conv_rhs => rw [hcs2]
          simp [List.takeWhile_append_dropWhile]
      · rw [if_neg h]
        simp only [List.map_cons, List.flatten_cons, List.cons_append, List.nil_append]
        rw [ih cs (by omega)]

/-- Every matched segment of the font-tag scan has the marker shape:
`\fn` followed by a nonempty name free of `\` and `}`. -/
theorem fnSegs_marker_shapes : ∀ (n : Nat) (cs : List Char), cs.length ≤ n →
    (fnSegs cs).all (fun s => !s.1 || fnMarkerShape s.2) = true := by
  intro n
  induction n with
  | zero =>
    intro cs h
    have hcs : cs = [] := List.length_eq_zero.mp (Nat.le_zero.mp h)
    subst hcs
    rfl
  | succ n ih =>
    intro cs hlen
    cases cs with
    | nil => rfl
    | cons c cs =>
      simp only [List.length_cons] at hlen
      rw [fnSegs_cons]
      by_cases h : c = '\\' ∧ cs.take 2 = ['f', 'n']
      · rw [if_pos h]
        by_cases hg : (cs.drop 2).takeWhile fnGroupChar = []
        · rw [if_pos hg]
          simp only [List.all_cons,
            ih (cs.drop 2) (by simp only [List.length_drop]; omega), Bool.and_true]
          simp
        · rw [if_neg hg]
          rw [List.all_cons, ih _ (by simp only [List.length_drop]; omega), Bool.and_true]
          rw [h.1]
          simp only [Bool.not_true, Bool.false_or]
          unfold fnMarkerShape
          simp only [List.take_succ_cons, List.take_zero, List.drop_succ_cons,
            List.drop_zero]
          rw [Bool.and_eq_true, Bool.and_eq_true]
          refine ⟨⟨by simp, ?_⟩, ?_⟩
          · simp [List.isEmpty_iff, hg]
          · rw [List.all_eq_true]
            exact fun a ha => List.mem_takeWhile_imp ha
      · rw [if_neg h]
        simp only [List.all_cons, ih cs (by omega), Bool.and_true]
        simp

/-- `fnSub` rewrites each scanned segment in place: markers get `\fn` plus
the mapped replacement of their captured name, everything else is copied
verbatim. -/
theorem fnSub_eq_segs (m : List (String × String)) (d : String) :
    ∀ (n : Nat) (cs : List Char), cs.length ≤ n →
      fnSub m d cs = ((fnSegs cs).map (fnRewriteSeg m d)).flatten := by
  intro n
  induction n with
  | zero =>
    intro cs h
    have hcs : cs = [] := List.length_eq_zero.mp (Nat.le_zero.mp h)
    subst hcs
    rfl
  | succ n ih =>
    intro cs hlen
    cases cs with
    | nil => rfl
    | cons c cs =>
      simp only [List.length_cons] at hlen
      rw [fnSub_cons, fnSegs_cons]
      by_cases h : c = '\\' ∧ cs.take 2 = ['f', 'n']
      · rw [if_pos h, if_pos h]
        by_cases hg : (cs.drop 2).takeWhile fnGroupChar = []
        · rw [if_pos hg, if_pos hg]
          simp only [List.map_cons, List.flatten_cons]
          rw [ih (cs.drop 2) (by simp only [List.length_drop]; omega)]
          unfold fnRewriteSeg
          simp
        · rw [if_neg hg, if_neg hg]
          simp only [List.map_cons, List.flatten_cons]
          rw [ih _ (by simp only [List.length_drop]; omega)]
          unfold fnRewriteSeg
          simp only [if_pos rfl]
          rw [h.1]
          simp [List.drop_succ_cons, List.drop_zero, List.append_assoc]
      · rw [if_neg h, if_neg h]
        simp only [List.map_cons, List.flatten_cons]
        rw [ih cs (by omega)]
        unfold fnRewriteSeg
        simp

/-- The captured font names of a line are the names of the marker segments,
in scan order. -/
theorem fnMarkers_eq_segs : ∀ (n : Nat) (cs : List Char), cs.length ≤ n →
    fnMarkers cs =
      ((fnSegs cs).filter (fun s => s.1)).map (fun s => String.mk (s.2.drop 3)) := by
  intro n
  induction n with
  | zero =>
    intro cs h
    have hcs : cs = [] := List.length_eq_zero.mp (Nat.le_zero.mp h)
    subst hcs
    rfl
  | succ n ih =>
    intro cs hlen
    cases cs with
    | nil => rfl
    | cons c cs =>
      simp only [List.length_cons] at hlen
      rw [fnMarkers_cons, fnSegs_cons]
      by_cases h : c = '\\' ∧ cs.take 2 = ['f', 'n']
      · rw [if_pos h, if_pos h]
        by_cases hg : (cs.drop 2).takeWhile fnGroupChar = []
        · rw [if_pos hg, if_pos hg]
          rw [List.filter_cons_of_neg (by simp)]
          exact ih (cs.drop 2) (by simp only [List.length_drop]; omega)
        · rw [if_neg hg, if_neg hg]
          rw [List.filter_cons_of_pos (by simp)]
          simp only [List.map_cons, List.drop_succ_cons, List.drop_zero]
          rw [ih _ (by simp only [List.length_drop]; omega)]
      · rw [if_neg h, if_neg h]
        rw [List.filter_cons_of_neg (by simp)]
        exact ih cs (by omega)

theorem hasFnSub_of_markers : ∀ (n : Nat) (cs : List Char), cs.length ≤ n →
    fnMarkers cs ≠ [] → hasFnSub cs = true := by
  intro n
  induction n with
  | zero =>
    intro cs h hne
    have hcs : cs = [] := List.length_eq_zero.mp (Nat.le_zero.mp h)
    subst hcs
    exact absurd rfl hne
  | succ n ih =>
    intro cs hlen hne
    cases cs with
    | nil => exact absurd rfl hne
    | cons c cs =>
      simp only [List.length_cons] at hlen
      simp only [hasFnSub]
      by_cases h : c = '\\' ∧ cs.take 2 = ['f', 'n']
      · rw [if_pos h]
      · rw [if_neg h]
        rw [fnMarkers_cons, if_neg h] at hne
        exact ih cs (by omega) hne

/-- Claim C2 counterexample: with the mapping `{"A": ""}` (an empty
replacement name), the line `{\fnA}x` is not a style line and contains one
inline font marker, but the rewritten line contains zero markers — the
marker is not rewritten to marker syntax carrying the replacement, and the
marker count is not preserved. -/
theorem inline_marker_count_not_preserved :
    styleMatch "\x7b\\fnA\x7dx".data = none ∧
    fnMarkers "\x7b\\fnA\x7dx".data = ["A"] ∧
    fnMarkers (processLine [("A", "")] "Verdana" false "\x7b\\fnA\x7dx".data) = [] :=
  ⟨by decide, by decide, by decide⟩

/-- Claim C2 (amended): for every line that, after the spacing-removal
step, is not a style-definition line and contains at least one inline font
marker: the engine's output is obtained from the line by rewriting every
marker `\fn<name>` in place to the same marker syntax carrying the mapped
replacement of `<name>` (the default font when `<name>` is absent from the
mapping), leaving every character outside the markers unchanged; and,
provided every replacement font name (each mapping value and the default
font) is nonempty and contains neither a backslash nor a closing brace,
the count of inline font markers in the output line equals the count in
the input line. -/
theorem inline_markers_rewritten (m : List (String × String)) (d : String) (rs : Bool)
    (line : List Char)
    (hd : goodFontB d = true) (hm : ∀ p ∈ m, goodFontB p.2 = true)
    (hstyle : styleMatch (spacingStep rs line) = none)
    (hmark : fnMarkers (spacingStep rs line) ≠ []) :
    ((fnSegs (spacingStep rs line)).map Prod.snd).flatten = spacingStep rs line ∧
    (fnSegs (spacingStep rs line)).all (fun s => !s.1 || fnMarkerShape s.2) = true ∧
    fnMarkers (spacingStep rs line) =
      ((fnSegs (spacingStep rs line)).filter (fun s => s.1)).map
        (fun s => String.mk (s.2.drop 3)) ∧
    processLine m d rs line =
      ((fnSegs (spacingStep rs line)).map (fnRewriteSeg m d)).flatten ∧
    fnMarkers (processLine m d rs line) =
      (fnMarkers (spacingStep rs line)).map (fun s => pyGet m s d) ∧
    (fnMarkers (processLine m d rs line)).length =
      (fnMarkers (spacingStep rs line)).length := by
  have hfn : hasFnSub (spacingStep rs line) = true :=
    hasFnSub_of_markers (spacingStep rs line).length _ (le_refl _) hmark
  have h1 : processLine m d rs line = fnSub m d (spacingStep rs line) := by
    simp only [processLine, hstyle, hfn]
    rfl
  have h2 := fnMarkers_fnSub m d hd hm (spacingStep rs line).length
    (spacingStep rs line) (le_refl _)
  refine ⟨fnSegs_flatten _ _ (le_refl _), fnSegs_marker_shapes _ _ (le_refl _),
    fnMarkers_eq_segs _ _ (le_refl _), ?_, ?_, ?_⟩
  · rw [h1]
    exact fnSub_eq_segs m d _ _ (le_refl _)
  · rw [h1]
    exact h2
  · rw [h1, h2]
    simp

theorem inline_markers_rewritten_witness :
    goodFontB "Verdana" = true ∧
    (∀ p ∈ ([("A", "Arial")] : List (String × String)), goodFontB p.2 = true) ∧
    styleMatch (spacingStep false "x\x7b\\fnA\x7dy\x7b\\fnB\x7dz".data) = none ∧
    fnMarkers (spacingStep false "x\x7b\\fnA\x7dy\x7b\\fnB\x7dz".data) ≠ [] ∧
    (((fnSegs (spacingStep false "x\x7b\\fnA\x7dy\x7b\\fnB\x7dz".data)).map
        Prod.snd).flatten =
      spacingStep false "x\x7b\\fnA\x7dy\x7b\\fnB\x7dz".data ∧
    (fnSegs (spacingStep false "x\x7b\\fnA\x7dy\x7b\\fnB\x7dz".data)).all
        (fun s => !s.1 || fnMarkerShape s.2) = true ∧
    fnMarkers (spacingStep false "x\x7b\\fnA\x7dy\x7b\\fnB\x7dz".data) =
      ((fnSegs (spacingStep false "x\x7b\\fnA\x7dy\x7b\\fnB\x7dz".data)).filter
        (fun s => s.1)).map (fun s => String.mk (s.2.drop 3)) ∧
    processLine [("A", "Arial")] "Verdana" false "x\x7b\\fnA\x7dy\x7b\\fnB\x7dz".data =
      ((fnSegs (spacingStep false "x\x7b\\fnA\x7dy\x7b\\fnB\x7dz".data)).map
        (fnRewriteSeg [("A", "Arial")] "Verdana")).flatten ∧
    fnMarkers (processLine [("A", "Arial")] "Verdana" false
        "x\x7b\\fnA\x7dy\x7b\\fnB\x7dz".data) =
      (fnMarkers (spacingStep false "x\x7b\\fnA\x7dy\x7b\\fnB\x7dz".data)).map
        (fun s => pyGet [("A", "Arial")] s "Verdana") ∧
    (fnMarkers (processLine [("A", "Arial")] "Verdana" false
        "x\x7b\\fnA\x7dy\x7b\\fnB\x7dz".data)).length =
      (fnMarkers (spacingStep false "x\x7b\\fnA\x7dy\x7b\\fnB\x7dz".data)).length) :=
  ⟨by decide, by decide, by decide, by decide,
   inline_markers_rewritten [("A", "Arial")] "Verdana" false
     "x\x7b\\fnA\x7dy\x7b\\fnB\x7dz".data
     (by decide) (by decide) (by decide) (by decide)⟩

/-! ### Progress values under binary64 semantics -/

theorem dblFromNat_pos (n : Nat) (h : 0 < n) : (dblFromNat n).m ≠ 0 := by
  unfold dblFromNat
  rw [if_neg (Nat.pos_iff_ne_zero.mp h), nlog2_eq_log2]
  dsimp only
  by_cases ht : Nat.log2 n ≤ 52
  · rw [if_pos ht]
    have : n * 2 ^ (52 - Nat.log2 n) ≠ 0 :=
      Nat.mul_ne_zero (Nat.pos_iff_ne_zero.mp h)
        (Nat.pos_iff_ne_zero.mp (Nat.pos_pow_of_pos _ (by omega)))
    simpa using this
  · rw [if_neg ht]
    have hq : 0 < n / 2 ^ (Nat.log2 n - 52) := by
      apply Nat.div_pos _ (Nat.pos_pow_of_pos _ (by omega))
      calc 2 ^ (Nat.log2 n - 52) ≤ 2 ^ Nat.log2 n :=
            Nat.pow_le_pow_right (by omega) (by omega)
        _ ≤ n := (Nat.le_log2 (Nat.pos_iff_ne_zero.mp h)).mp (le_refl _)
    have hrhe : n / 2 ^ (Nat.log2 n - 52) ≤
        rhe (n / 2 ^ (Nat.log2 n - 52)) (n % 2 ^ (Nat.log2 n - 52)) (2 ^ (Nat.log2 n - 52)) := by
      unfold rhe
      split_ifs <;> omega
    unfold norm53
    split_ifs with hc
    · simp only [ne_eq]
      exact Nat.pos_iff_ne_zero.mp (Nat.pos_pow_of_pos _ (by omega))
    · simp only [ne_eq]
      omega

theorem dblDiv_self (a : Dbl) (h : a.m ≠ 0) : dblDiv a a = ⟨2 ^ 52, -52⟩ := by
  unfold dblDiv
  rw [if_neg (by simp [h])]
  rw [if_pos (le_refl a.m)]
  have hdiv : a.m * 2 ^ 52 / a.m = 2 ^ 52 :=
    Nat.mul_div_cancel_left (2 ^ 52) (Nat.pos_iff_ne_zero.mpr h)
  have hmod : a.m * 2 ^ 52 % a.m = 0 := Nat.mul_mod_right a.m (2 ^ 52)
  rw [hdiv, hmod]
  have hrhe : rhe (2 ^ 52) 0 a.m = 2 ^ 52 := by
    unfold rhe
    rw [if_pos (by omega)]
  rw [hrhe]
  unfold norm53
  rw [if_neg (by decide)]
  have he : a.e - a.e - 52 = -52 := by omega
  rw [he]

/-- The last progress event of any nonempty batch: `n/n` divides to exactly
`1.0`, so `int(1.0 * 100)` is exactly `100`. -/
theorem pyProgress_last (n : Nat) (h : 0 < n) : pyProgress n n = 100 := by
  unfold pyProgress
  rw [dblDiv_self _ (dblFromNat_pos n h)]
  decide

/-- Claim C8 counterexample: after the 29th of 100 files the emitted
progress value, computed in binary64 floating point as
`int(29 / 100 * 100)`, is 28, while the integer, rounded down, of
29/100·100 is 29 — the emitted value is not the exact rounded-down
percentage. -/
theorem progress_not_exact_floor :
    pyProgress 29 100 = 28 ∧ 100 * 29 / 100 = 29 ∧
    (progressEvents 100)[28]? = some 28 :=
  ⟨by decide, by decide, by decide⟩

/-- Claim C8 (amended): the progress value after the k-th of n files is
`int(k / n * 100)` evaluated in binary64 floating point, which can be one
less than the exact rounded-down percentage; a batch of n files emits
exactly n progress events in file order, the last one always carrying 100,
and a batch of 3 files emits exactly the values 33, 66, 100 in that
order. -/
theorem progress_events_binary64 (n : Nat) (h : 0 < n) :
    pyProgress n n = 100 ∧
    (progressEvents n).length = n ∧
    progressEvents 3 = [33, 66, 100] :=
  ⟨pyProgress_last n h, by simp [progressEvents], by decide⟩

theorem progress_events_binary64_witness :
    0 < 7 ∧
    (pyProgress 7 7 = 100 ∧ (progressEvents 7).length = 7 ∧
      progressEvents 3 = [33, 66, 100]) :=
  ⟨by decide, progress_events_binary64 7 (by decide)⟩

end AssFontReplacer

